import Mathlib

/-
  Verification of the message synchronization core of the iuselinux
  repository: the server-side cursor fetch (`get_messages`,
  `poll_messages`, the WebSocket polling loop), the send rate limiter,
  and the client-side reconciliation engine (`MessageList` in
  src/src/iuselinux/tui/widgets/message_list.py).

  Machine integers of the source (SQLite ROWIDs, timestamps) are modelled
  as `Int`; Python sets are modelled as lists with set-style operations;
  SQL result sets are modelled as Lean lists sorted by explicit,
  kernel-executable insertion sorts.
-/

/-- A message row. Mirrors the fields of `Message`
(src/imessage_gateway/messages.py and src/src/iuselinux/tui/models.py)
that the synchronization logic reads: `ROWID`, the `date` column used by
`ORDER BY`, `chat_id` from the chat join, `text`, and `is_from_me`.
The remaining fields (guid, handle, attachments, tapbacks) are opaque
payload the sync logic never inspects. -/
structure Row where
  rowid : Int
  date : Int
  chatId : Option Int
  text : Option String
  isFromMe : Bool
deriving Repr, DecidableEq

/-- Insertion step for `ORDER BY message.date DESC`: a row is placed
before the first element with a strictly smaller `date`; rows with equal
dates keep their previous relative order. -/
def insertByDateDesc (r : Row) : List Row → List Row
  | [] => [r]
  | x :: xs => if x.date < r.date then r :: x :: xs else x :: insertByDateDesc r xs

/-- `ORDER BY message.date DESC` of the message query in
src/imessage_gateway/messages.py (get_messages). -/
def sortByDateDesc : List Row → List Row
  | [] => []
  | x :: xs => insertByDateDesc x (sortByDateDesc xs)

/-- Insertion step for `new_messages.sort(key=lambda m: m.rowid)`
(ascending, stable). -/
def insertByRowidAsc (r : Row) : List Row → List Row
  | [] => [r]
  | x :: xs => if x.rowid ≤ r.rowid then x :: insertByRowidAsc r xs else r :: x :: xs

/-- `new_messages.sort(key=lambda m: m.rowid)` in `websocket_endpoint`
(src/src/iuselinux/api.py). -/
def sortByRowidAsc : List Row → List Row
  | [] => []
  | x :: xs => insertByRowidAsc x (sortByRowidAsc xs)

/-- The WHERE clause of `get_messages`
(src/imessage_gateway/messages.py, lines 207-219): an optional
`chat_message_join.chat_id = ?` filter and an optional
`message.ROWID > ?` filter. -/
def rowMatches (chatId : Option Int) (afterRowid : Option Int) (r : Row) : Bool :=
  (match chatId with
   | none => true
   | some c => r.chatId == some c) &&
  (match afterRowid with
   | none => true
   | some a => decide (a < r.rowid))

/-- `get_messages` from src/imessage_gateway/messages.py: filter by chat
and by `ROWID > after_rowid`, `ORDER BY message.date DESC`, `LIMIT`.
Returns rows newest-first. -/
def get_messages (store : List Row) (chatId : Option Int) (lim : Nat)
    (afterRowid : Option Int) : List Row :=
  (sortByDateDesc (store.filter (rowMatches chatId afterRowid))).take lim

/-- Modelled from the spec: the backward-pagination mode (`before_rowid`)
of the server message query. The module that serves it
(src/iuselinux/messages.py, imported by src/src/iuselinux/api.py) is not
present under src; per spec section 4.1 the backward mode selects rows
with `id < watermark` in the same chat scope and returns the `limit`
rows immediately preceding the watermark. Like the forward query they
are produced newest-first, the order the TUI client expects. -/
def get_messages_before (store : List Row) (chatId : Option Int) (lim : Nat)
    (beforeRowid : Int) : List Row :=
  (sortByDateDesc (store.filter
    (fun r => rowMatches chatId none r && decide (r.rowid < beforeRowid)))).take lim

/-- Response of GET /poll (`PollResponse` in src/src/iuselinux/api.py). -/
structure PollResponse where
  messages : List Row
  lastRowid : Int
  hasMore : Bool
deriving Repr, DecidableEq

/-- `poll_messages` (GET /poll) from src/src/iuselinux/api.py, lines
780-821: fetch `limit + 1` rows newest-first, reverse to oldest-first,
set `has_more` when more than `limit` came back and trim to `limit`,
and report `last_rowid` as the rowid of the final returned message (or
the input `after_rowid` when nothing is returned). -/
def poll_messages (store : List Row) (afterRowid : Int) (chatId : Option Int)
    (lim : Nat) : PollResponse :=
  let ms := get_messages store chatId (lim + 1) (some afterRowid)
  let ms := ms.reverse
  let hasMore := decide (lim < ms.length)
  let ms := if hasMore then ms.take lim else ms
  let lastRowid :=
    match ms.getLast? with
    | some m => m.rowid
    | none => afterRowid
  ⟨ms, lastRowid, hasMore⟩

/-- One polling iteration of `websocket_endpoint`
(src/src/iuselinux/api.py, lines 1311-1358): fetch up to 100 rows with
`ROWID > last_rowid`, and if any arrived, sort them ascending by rowid,
advance the watermark to the last (largest) rowid and push the batch. -/
def websocket_tick (store : List Row) (chatId : Option Int) (lastRowid : Int) :
    Int × List Row :=
  let newMessages := get_messages store chatId 100 (some lastRowid)
  if newMessages.isEmpty then (lastRowid, [])
  else
    let sorted := sortByRowidAsc newMessages
    match sorted.getLast? with
    | some m => (m.rowid, sorted)
    | none => (lastRowid, [])

/-- A sequence of `websocket_tick` fetches by one connection against a
fixed chat, one tick per (possibly grown) store snapshot. Each entry
records (input watermark, output watermark, pushed batch). -/
def websocket_run (chatId : Option Int) (w : Int) :
    List (List Row) → List (Int × Int × List Row)
  | [] => []
  | store :: rest =>
    let t := websocket_tick store chatId w
    (w, t.1, t.2) :: websocket_run chatId t.1 rest

/-- Rows of the store may only carry strictly increasing rowids, and the
store's `date` column respects rowid order (spec section 3: row ids are
strictly increasing and id order is a valid creation order). The store
list is taken in insertion order. -/
def StoreWF (store : List Row) : Prop :=
  store.Pairwise (fun a b => a.rowid < b.rowid ∧ a.date < b.date)

instance : DecidablePred StoreWF := fun store =>
  inferInstanceAs (Decidable (store.Pairwise _))

/-- `RATE_LIMIT_MESSAGES` from src/src/iuselinux/api.py. -/
def RATE_LIMIT_MESSAGES : Nat := 10

/-- `RATE_LIMIT_WINDOW` (seconds) from src/src/iuselinux/api.py. -/
def RATE_LIMIT_WINDOW : Int := 60

/-- The pruning loop of `_check_rate_limit`
(src/src/iuselinux/api.py, lines 533-548): pop timestamps from the left
of the deque while they are older than `now - RATE_LIMIT_WINDOW`. -/
def pruneTimestamps (now : Int) (q : List Int) : List Int :=
  q.dropWhile (fun ts => decide (ts < now - RATE_LIMIT_WINDOW))

/-- Result of `send_imessage` (`SendResult` in the sender module): a
success flag and an optional AppleScript error string. -/
structure SendResult where
  success : Bool
  error : Option String
deriving Repr, DecidableEq

/-- Substring test over character lists (used to model Python
`phrase in error_lower`). -/
def containsSub (pat : List Char) : List Char → Bool
  | [] => pat.isEmpty
  | c :: rest => pat.isPrefixOf (c :: rest) || containsSub pat rest

/-- Python `phrase in error_lower` on strings. -/
def containsPhrase (s pat : String) : Bool :=
  containsSub pat.data s.data

/-- `_classify_send_error` from src/src/iuselinux/api.py: map an
AppleScript error to (HTTP status, error type, user message). -/
def _classify_send_error : Option String → Nat × String × String
  | none => (500, "unknown", "Unknown error occurred")
  | some error =>
    let e := error.map Char.toLower
    if ["can\x27t get buddy", "can\x27t get participant", "not found",
        "invalid phone", "invalid email"].any (fun p => containsPhrase e p) then
      (404, "recipient_not_found",
        "Recipient not found. Ensure the phone number or email is registered with iMessage.")
    else if ["can\x27t get service", "can\x27t get account", "no account",
        "not signed in", "connection invalid"].any (fun p => containsPhrase e p) then
      (503, "service_unavailable",
        "iMessage service unavailable. Ensure Messages.app is running and signed in.")
    else if containsPhrase e "timeout" then
      (504, "timeout", "Request timed out. Messages.app may be unresponsive.")
    else
      (500, "unknown", error)

/-- What POST /send answers: success, HTTP 429, or a classified error
response (status, error type, message). -/
inductive SendReply where
  | ok
  | rateLimited (retryAfter : Int)
  | sendError (status : Nat) (etype : String) (msg : String)
deriving Repr, DecidableEq

/-- `send_message` (POST /send) from src/src/iuselinux/api.py, lines
616-642, together with `_check_rate_limit`: prune expired timestamps,
reject with 429 when the window already holds `RATE_LIMIT_MESSAGES`
entries, delegate to the sender, raise a classified error on failure,
and append the current timestamp only after a successful send. The
global `_send_timestamps` deque is passed and returned explicitly. -/
def send_message (now : Int) (q : List Int) (result : SendResult) :
    List Int × SendReply :=
  let q := pruneTimestamps now q
  if RATE_LIMIT_MESSAGES ≤ q.length then
    (q, .rateLimited (q.headD now - (now - RATE_LIMIT_WINDOW) + 1))
  else if result.success then
    (q ++ [now], .ok)
  else
    let c := _classify_send_error result.error
    (q, .sendError c.1 c.2.1 c.2.2)

/-- `PAGE_SIZE` from src/src/iuselinux/tui/widgets/message_list.py. -/
def PAGE_SIZE : Nat := 50

/-- A mounted `MessageBubble` widget
(src/src/iuselinux/tui/widgets/message_bubble.py): its `pending` and
`failed` flags and the `message` it displays. -/
structure Bubble where
  pending : Bool
  failed : Bool
  msg : Row
deriving Repr, DecidableEq

/-- Set insertion on the list model of a Python set. -/
def setInsertInt (i : Int) (s : List Int) : List Int :=
  if i ∈ s then s else i :: s

/-- Python `set.update` (union) on the list model of a set of rowids. -/
def setUnionRowids (s : List Int) (ms : List Row) : List Int :=
  ms.foldl (fun acc m => setInsertInt m.rowid acc) s

/-- Python `{m.rowid for m in messages}`. -/
def seenOf (ms : List Row) : List Int :=
  setUnionRowids [] ms

/-- Set insertion for the pending-text set. -/
def setInsertStr (t : String) (s : List String) : List String :=
  if t ∈ s then s else t :: s

/-- Python `set.discard` on the list model of the pending-text set:
removes the element entirely. -/
def setDiscardStr (t : String) (s : List String) : List String :=
  s.filter (fun x => x ≠ t)

/-- Python `min(m.rowid for m in messages)` (meaningful only on a
non-empty list). -/
def minRowid : List Row → Int
  | [] => 0
  | m :: rest => rest.foldl (fun a r => min a r.rowid) m.rowid

/-- State of the `MessageList` widget
(src/src/iuselinux/tui/widgets/message_list.py): the current chat, the
internal newest-first `_messages` list, `_pending_texts`,
`_seen_rowids`, the pagination cursor `_oldest_rowid` and flags
`_has_more` / `_loading_more`, plus the mounted bubbles and the current
placeholder text (if a placeholder is shown instead of bubbles). -/
structure MLState where
  currentChat : Option Int
  messages : List Row
  pendingTexts : List String
  seen : List Int
  oldestRowid : Option Int
  hasMore : Bool
  loadingMore : Bool
  bubbles : List Bubble
  placeholder : Option String
deriving Repr, DecidableEq

/-- The widget state right after `__init__` / `on_mount`. -/
def mlInit : MLState :=
  { currentChat := none, messages := [], pendingTexts := [], seen := [],
    oldestRowid := none, hasMore := true, loadingMore := false,
    bubbles := [], placeholder := some "Select a chat to view messages" }

/-- `_render_messages`: remove all children and mount one bubble per
message in `reversed(self._messages)` (oldest at top); an empty message
list shows a placeholder instead. -/
def renderBubbles (ms : List Row) : List Bubble :=
  ms.reverse.map (fun m => { pending := false, failed := false, msg := m })

/-- `_render_messages` as a state update. -/
def renderMessages (s : MLState) : MLState :=
  if s.messages.isEmpty then
    { s with bubbles := [], placeholder := some "No messages in this chat" }
  else
    { s with bubbles := renderBubbles s.messages, placeholder := none }

/-- `load_chat` from src/src/iuselinux/tui/widgets/message_list.py,
lines 54-84. The awaited initial page fetch is passed in as `resp`
(`Except` models the try/except around it). Note the code clears
`_pending_texts`, `_seen_rowids`, `_oldest_rowid` and the flags before
the fetch, but assigns `_messages` only on success. -/
def load_chat (s : MLState) (chat : Int) (resp : Except Unit (List Row)) : MLState :=
  let s := { s with
    currentChat := some chat, pendingTexts := [], seen := [],
    oldestRowid := none, hasMore := true, loadingMore := false,
    bubbles := [], placeholder := some "Loading messages..." }
  match resp with
  | .error _ => { s with bubbles := [], placeholder := some "Error loading messages" }
  | .ok msgs =>
    let s := { s with messages := msgs, seen := seenOf msgs }
    let s :=
      if msgs.isEmpty then { s with hasMore := false }
      else { s with oldestRowid := some (minRowid msgs),
                    hasMore := msgs.length == PAGE_SIZE }
    renderMessages s

/-- `message.text or ""` in `add_message`. -/
def msgText (m : Row) : String := m.text.getD ""

/-- The bubble-matching test of `add_message` and `mark_message_failed`:
`bubble.message.text == msg_text` (a `None` text never matches). -/
def bubbleTextIs (t : String) (b : Bubble) : Bool := b.msg.text == some t

/-- The confirmation loop of `add_message`: find the first mounted
bubble with `bubble.pending and bubble.message.text == msg_text`,
overwrite its message with the confirmed row and call `confirm()`
(clearing both flags); `none` when no bubble matched. -/
def confirmFirstPending (t : String) (m : Row) : List Bubble → Option (List Bubble)
  | [] => none
  | b :: bs =>
    if b.pending && bubbleTextIs t b then
      some ({ pending := false, failed := false, msg := m } :: bs)
    else
      match confirmFirstPending t m bs with
      | some bs2 => some (b :: bs2)
      | none => none

/-- The common tail of `add_message`: record the rowid as seen, insert
the row at the front of `_messages` (newest), drop any placeholder and
mount a new (non-pending) bubble at the bottom. -/
def appendNewMessage (s : MLState) (m : Row) : MLState :=
  { s with seen := setInsertInt m.rowid s.seen,
           messages := m :: s.messages,
           bubbles := s.bubbles ++ [{ pending := false, failed := false, msg := m }],
           placeholder := none }

/-- `add_message` from src/src/iuselinux/tui/widgets/message_list.py,
lines 112-146: skip rows already in `_seen_rowids`; an outgoing row
whose text is in `_pending_texts` confirms the first matching pending
bubble in place (discarding the text and recording the rowid); in every
other case (including a pending text with no matching bubble left) the
row is appended as a genuinely new message. -/
def add_message (s : MLState) (m : Row) : MLState :=
  if m.rowid ∈ s.seen then s
  else
    let t := msgText m
    if m.isFromMe && s.pendingTexts.contains t then
      let s := { s with pendingTexts := setDiscardStr t s.pendingTexts,
                        seen := setInsertInt m.rowid s.seen }
      match confirmFirstPending t m s.bubbles with
      | some bs => { s with bubbles := bs }
      | none => appendNewMessage s m
    else
      appendNewMessage s m

/-- `add_pending_message` from
src/src/iuselinux/tui/widgets/message_list.py, lines 148-178: create a
placeholder outgoing message with the sentinel rowid -1, record the text
in `_pending_texts`, and mount a pending bubble at the bottom. -/
def add_pending_message (s : MLState) (text : String) : MLState :=
  let pendingMsg : Row :=
    { rowid := -1, date := 0, chatId := s.currentChat,
      text := some text, isFromMe := true }
  { s with pendingTexts := setInsertStr text s.pendingTexts,
           bubbles := s.bubbles ++ [{ pending := true, failed := false, msg := pendingMsg }],
           placeholder := none }

/-- The loop body of `mark_message_failed`: `mark_failed()` on the first
pending bubble whose text matches (setting `pending := false`,
`failed := true`); later bubbles are untouched. -/
def markFailedFirst (t : String) : List Bubble → List Bubble
  | [] => []
  | b :: bs =>
    if b.pending && bubbleTextIs t b then
      { b with pending := false, failed := true } :: bs
    else
      b :: markFailedFirst t bs

/-- `mark_message_failed` from
src/src/iuselinux/tui/widgets/message_list.py, lines 180-187; the text
deliberately stays in `_pending_texts`. -/
def mark_message_failed (s : MLState) (text : String) : MLState :=
  { s with bubbles := markFailedFirst text s.bubbles }

/-- The request captured by `_load_more_messages` before awaiting: the
current chat rowid and the `before_rowid` cursor. -/
structure LoadMoreReq where
  chat : Int
  before : Int
deriving Repr, DecidableEq

/-- The synchronous prefix of `_load_more_messages`
(src/src/iuselinux/tui/widgets/message_list.py, lines 193-214): return
`none` (no-op) unless `_has_more`, not `_loading_more`, a chat is
selected and `_oldest_rowid` is set; otherwise set `_loading_more` and
capture the fetch parameters. -/
def loadMoreStart (s : MLState) : Option (MLState × LoadMoreReq) :=
  if s.hasMore = false ∨ s.loadingMore = true then none
  else
    match s.currentChat, s.oldestRowid with
    | some c, some o => some ({ s with loadingMore := true }, ⟨c, o⟩)
    | _, _ => none

/-- The continuation of `_load_more_messages` after the awaited fetch
(lines 210-238), applied to whatever state the widget is in by then: an
exception only clears `_loading_more`; an empty page clears `_has_more`;
otherwise the page is unioned into `_seen_rowids`, appended to
`_messages`, the cursor and `_has_more` are updated and the list is
re-rendered. No comparison against the currently selected chat is made. -/
def loadMoreFinish (s : MLState) (resp : Except Unit (List Row)) : MLState :=
  match resp with
  | .error _ => { s with loadingMore := false }
  | .ok older =>
    if older.isEmpty then
      { s with hasMore := false, loadingMore := false }
    else
      let s := { s with
        seen := setUnionRowids s.seen older,
        messages := s.messages ++ older,
        oldestRowid := some (minRowid older),
        hasMore := older.length == PAGE_SIZE }
      let s := renderMessages s
      { s with loadingMore := false }

/-- `_load_more_messages` run to completion with no interleaving, its
fetch served by `get_messages_before` against `store`. -/
def load_more_messages (store : List Row) (s : MLState) : MLState :=
  match loadMoreStart s with
  | none => s
  | some (s2, req) =>
    loadMoreFinish s2 (.ok (get_messages_before store (some req.chat) PAGE_SIZE req.before))

/-- One engine operation of the reconciliation loop: switching to a
chat, loading an older page, or applying one pushed row. -/
inductive EngOp where
  | load (chat : Int)
  | loadOlder
  | push (m : Row)
deriving Repr, DecidableEq

/-- One engine step against a fixed store, fetches served by the
server-query models. -/
def engStep (store : List Row) (s : MLState) : EngOp → MLState
  | .load c => load_chat s c (.ok (get_messages store (some c) PAGE_SIZE none))
  | .loadOlder => load_more_messages store s
  | .push m => add_message s m

/-- Apply a pushed batch row by row (`on_new_messages` calls
`add_message` per row, in batch order). -/
def applyBatch (s : MLState) (rows : List Row) : MLState :=
  rows.foldl add_message s

theorem insertByDateDesc_perm (r : Row) (l : List Row) :
    (insertByDateDesc r l).Perm (r :: l) := by
  induction l with
  | nil => exact List.Perm.refl _
  | cons x xs ih =>
    simp only [insertByDateDesc]
    split
    · exact List.Perm.refl _
    · exact (ih.cons x).trans (List.Perm.swap r x xs)

theorem sortByDateDesc_perm (l : List Row) : (sortByDateDesc l).Perm l := by
  induction l with
  | nil => exact List.Perm.refl _
  | cons x xs ih =>
    exact (insertByDateDesc_perm x (sortByDateDesc xs)).trans (ih.cons x)

theorem insertByRowidAsc_perm (r : Row) (l : List Row) :
    (insertByRowidAsc r l).Perm (r :: l) := by
  induction l with
  | nil => exact List.Perm.refl _
  | cons x xs ih =>
    simp only [insertByRowidAsc]
    split
    · exact (ih.cons x).trans (List.Perm.swap r x xs)
    · exact List.Perm.refl _

theorem sortByRowidAsc_perm (l : List Row) : (sortByRowidAsc l).Perm l := by
  induction l with
  | nil => exact List.Perm.refl _
  | cons x xs ih =>
    exact (insertByRowidAsc_perm x (sortByRowidAsc xs)).trans (ih.cons x)

theorem insertByDateDesc_of_forall (r : Row) (l : List Row)
    (h : ∀ y ∈ l, ¬ y.date < r.date) : insertByDateDesc r l = l ++ [r] := by
  induction l with
  | nil => rfl
  | cons x xs ih =>
    simp only [insertByDateDesc]
    rw [if_neg (h x (List.mem_cons_self x xs))]
    rw [ih (fun y hy => h y (List.mem_cons_of_mem x hy))]
    rfl

/-- On rows whose dates strictly increase along the list, sorting by
date descending is exactly list reversal. -/
theorem sortByDateDesc_of_dateAsc (l : List Row)
    (h : l.Pairwise (fun a b => a.date < b.date)) :
    sortByDateDesc l = l.reverse := by
  induction l with
  | nil => rfl
  | cons x xs ih =>
    obtain ⟨hx, hxs⟩ := List.pairwise_cons.mp h
    simp only [sortByDateDesc]
    rw [ih hxs, insertByDateDesc_of_forall]
    · simp
    · intro y hy
      have := hx y (List.mem_reverse.mp hy)
      omega

theorem mem_get_messages {store : List Row} {chat : Option Int} {lim : Nat}
    {aft : Option Int} {m : Row} (h : m ∈ get_messages store chat lim aft) :
    m ∈ store ∧ rowMatches chat aft m = true := by
  unfold get_messages at h
  have h1 : m ∈ sortByDateDesc (store.filter (rowMatches chat aft)) :=
    (List.take_sublist _ _).subset h
  have h2 : m ∈ store.filter (rowMatches chat aft) :=
    (sortByDateDesc_perm _).mem_iff.mp h1
  exact ⟨(List.mem_filter.mp h2).1, (List.mem_filter.mp h2).2⟩

theorem rowMatches_after {chat : Option Int} {a : Int} {r : Row}
    (h : rowMatches chat (some a) r = true) : a < r.rowid := by
  unfold rowMatches at h
  have h2 := (Bool.and_eq_true _ _ |>.mp h).2
  exact of_decide_eq_true h2

/-- Under a well-formed store, the forward query returns the reversal of
the matching rows (newest first), truncated to the limit. -/
theorem get_messages_of_wf {store : List Row} (hwf : StoreWF store)
    (chat : Option Int) (lim : Nat) (aft : Option Int) :
    get_messages store chat lim aft =
      ((store.filter (rowMatches chat aft)).reverse).take lim := by
  unfold get_messages
  rw [sortByDateDesc_of_dateAsc]
  exact ((hwf.imp (fun h => h.2)).filter _)

theorem poll_messages_eq_take (store : List Row) (after : Int)
    (chat : Option Int) (lim : Nat) :
    (poll_messages store after chat lim).messages =
      ((get_messages store chat (lim + 1) (some after)).reverse).take lim := by
  unfold poll_messages
  dsimp only
  split
  · rfl
  · next h =>
    rw [List.take_of_length_le]
    exact Nat.le_of_not_lt (by simpa using h)

theorem pairwise_rowid_le_getLast {l : List Row}
    (hl : l.Pairwise (fun a b => a.rowid < b.rowid)) {g : Row}
    (h : l.getLast? = some g) : ∀ x ∈ l, x.rowid ≤ g.rowid := by
  obtain ⟨ys, rfl⟩ := List.getLast?_eq_some_iff.mp h
  intro x hx
  rcases List.mem_append.mp hx with h1 | h2
  · have h3 := (List.pairwise_append.mp hl).2.2
    exact le_of_lt (h3 x h1 g (List.mem_singleton_self g))
  · rw [List.mem_singleton.mp h2]

/-- The rows with `id > after`, in store (ascending id) order, under a
well-formed store. -/
def matchingRows (store : List Row) (chat : Option Int) (after : Int) : List Row :=
  store.filter (rowMatches chat (some after))

/-- The newest `n` rows of a batch, keeping ascending order. -/
def newestRows (n : Nat) (l : List Row) : List Row :=
  (l.reverse.take n).reverse

theorem poll_messages_of_wf {store : List Row} (hwf : StoreWF store)
    (after : Int) (chat : Option Int) (lim : Nat) :
    (poll_messages store after chat lim).messages =
      (newestRows (lim + 1) (matchingRows store chat after)).take lim := by
  rw [poll_messages_eq_take, get_messages_of_wf hwf]
  rfl

theorem matchingRows_pairwise {store : List Row} (hwf : StoreWF store)
    (chat : Option Int) (after : Int) :
    (matchingRows store chat after).Pairwise (fun a b => a.rowid < b.rowid) :=
  (hwf.imp (fun h => h.1)).filter _

theorem poll_messages_pairwise {store : List Row} (hwf : StoreWF store)
    (after : Int) (chat : Option Int) (lim : Nat) :
    (poll_messages store after chat lim).messages.Pairwise
      (fun a b => a.rowid < b.rowid) := by
  rw [poll_messages_of_wf hwf]
  have h1 := matchingRows_pairwise hwf chat after
  have h2 : (newestRows (lim + 1) (matchingRows store chat after)).Pairwise
      (fun a b => a.rowid < b.rowid) := by
    unfold newestRows
    rw [List.pairwise_reverse]
    exact List.Pairwise.sublist (List.take_sublist _ _)
      (List.pairwise_reverse.mpr (h1.imp (fun {a b} h => h)))
  exact List.Pairwise.sublist (List.take_sublist _ _) h2

theorem mem_poll_messages {store : List Row} {after : Int} {chat : Option Int}
    {lim : Nat} {m : Row}
    (h : m ∈ (poll_messages store after chat lim).messages) :
    m ∈ store ∧ rowMatches chat (some after) m = true := by
  rw [poll_messages_eq_take] at h
  have h1 : m ∈ get_messages store chat (lim + 1) (some after) :=
    List.mem_reverse.mp ((List.take_sublist _ _).subset h)
  exact mem_get_messages h1

theorem poll_messages_length (store : List Row) (after : Int)
    (chat : Option Int) (lim : Nat) :
    (poll_messages store after chat lim).messages.length =
      min (matchingRows store chat after).length lim := by
  rw [poll_messages_eq_take]
  unfold get_messages
  rw [List.length_take, List.length_reverse, List.length_take,
    (sortByDateDesc_perm _).length_eq]
  show min lim (min (lim + 1) (matchingRows store chat after).length) = _
  omega

theorem poll_messages_hasMore (store : List Row) (after : Int)
    (chat : Option Int) (lim : Nat) :
    (poll_messages store after chat lim).hasMore =
      decide (lim < (matchingRows store chat after).length) := by
  unfold poll_messages
  dsimp only
  rw [decide_eq_decide]
  unfold get_messages
  rw [List.length_reverse, List.length_take, (sortByDateDesc_perm _).length_eq]
  show lim < min (lim + 1) (matchingRows store chat after).length ↔ _
  omega

theorem poll_messages_eq_matching_of_not_hasMore {store : List Row}
    (hwf : StoreWF store) {after : Int} {chat : Option Int} {lim : Nat}
    (h : (poll_messages store after chat lim).hasMore = false) :
    (poll_messages store after chat lim).messages =
      matchingRows store chat after := by
  rw [poll_messages_hasMore] at h
  have hlen : (matchingRows store chat after).length ≤ lim := by
    have := of_decide_eq_false h
    omega
  rw [poll_messages_of_wf hwf]
  unfold newestRows
  rw [List.take_of_length_le
        (show (matchingRows store chat after).reverse.length ≤ lim + 1 by
          rw [List.length_reverse]; omega),
    List.reverse_reverse, List.take_of_length_le hlen]

theorem poll_messages_lastRowid (store : List Row) (after : Int)
    (chat : Option Int) (lim : Nat) :
    (poll_messages store after chat lim).lastRowid =
      (match (poll_messages store after chat lim).messages.getLast? with
       | some m => m.rowid
       | none => after) := by
  rfl

theorem poll_messages_le_lastRowid {store : List Row} (hwf : StoreWF store)
    (after : Int) (chat : Option Int) (lim : Nat) :
    ∀ m ∈ (poll_messages store after chat lim).messages,
      m.rowid ≤ (poll_messages store after chat lim).lastRowid := by
  intro m hm
  rw [poll_messages_lastRowid]
  rcases hg : (poll_messages store after chat lim).messages.getLast? with _ | g
  · rw [List.getLast?_eq_none_iff.mp hg] at hm
    exact absurd hm (List.not_mem_nil m)
  · exact pairwise_rowid_le_getLast (poll_messages_pairwise hwf after chat lim) hg m hm

theorem poll_repoll_matching_nil {store : List Row} (hwf : StoreWF store)
    {after : Int} {chat : Option Int} {lim : Nat}
    (h : (poll_messages store after chat lim).hasMore = false) :
    matchingRows store chat ((poll_messages store after chat lim).lastRowid) = [] := by
  apply List.filter_eq_nil_iff.mpr
  intro r hr hmatch
  have hlt : (poll_messages store after chat lim).lastRowid < r.rowid :=
    rowMatches_after hmatch
  have hchat := (Bool.and_eq_true _ _ |>.mp hmatch).1
  have hafter : after ≤ (poll_messages store after chat lim).lastRowid := by
    rw [poll_messages_lastRowid]
    rcases hg : (poll_messages store after chat lim).messages.getLast? with _ | g
    · exact le_refl after
    · have hgm : g ∈ (poll_messages store after chat lim).messages := by
        obtain ⟨ys, hys⟩ := List.getLast?_eq_some_iff.mp hg
        rw [hys]
        exact List.mem_append_right ys (List.mem_singleton_self g)
      have := rowMatches_after (mem_poll_messages hgm).2
      show after ≤ g.rowid
      omega
  have hr2 : r ∈ matchingRows store chat after := by
    refine List.mem_filter.mpr ⟨hr, ?_⟩
    unfold rowMatches
    refine (Bool.and_eq_true _ _).mpr ⟨hchat, ?_⟩
    exact decide_eq_true (by omega)
  rw [← poll_messages_eq_matching_of_not_hasMore hwf h] at hr2
  have := poll_messages_le_lastRowid hwf after chat lim r hr2
  omega

/-- C7: the limit+1 truncation heuristic of GET /poll: `has_more` is true
exactly when strictly more than `limit` rows match the watermark (and
chat scope), and the number of returned rows is the number of matching
rows capped at `limit` — so 11 matching rows with limit 10 return 10
rows with `has_more = true`, and exactly 10 matching rows return all 10
with `has_more = false`. -/
theorem poll_limit_truncation (store : List Row) (after : Int)
    (chat : Option Int) (lim : Nat) :
    (poll_messages store after chat lim).hasMore
        = decide (lim < (matchingRows store chat after).length) ∧
    (poll_messages store after chat lim).messages.length
        = min (matchingRows store chat after).length lim :=
  ⟨poll_messages_hasMore store after chat lim,
   poll_messages_length store after chat lim⟩

/-- Store used by the counterexamples and witnesses: three rows of one
chat with ids (and dates) 1, 2, 3. -/
def cexStore : List Row :=
  [⟨1, 1, none, some "a", false⟩, ⟨2, 2, none, some "b", false⟩,
   ⟨3, 3, none, some "c", false⟩]

/-- C1 counterexample: a forward poll with watermark 0 and limit 1
against a store holding 3 (> 1) rows with id > 0 returns the row with
id 2 — not the single smallest matching id 1 as the claim demands. The
query takes the newest `limit+1` rows (ids 2, 3) and the trim then drops
id 3, so id 1 is never returned. -/
theorem poll_forward_batch_cex :
    (poll_messages cexStore 0 none 1).messages.map (fun m => m.rowid) = [2] ∧
    ¬ ((poll_messages cexStore 0 none 1).messages.map (fun m => m.rowid) = [1]) ∧
    (matchingRows cexStore none 0).length = 3 := by
  refine ⟨?_, ?_, ?_⟩ <;> decide

/-- C1 (amended): a forward poll returns rows with `id > watermark` in
ascending id order capped at `limit`, but they are the oldest `limit` of
the newest `limit + 1` matching rows (the query keeps the newest
`limit + 1` and the trim drops the newest): only when at most
`limit + 1` rows match is this the batch of smallest matching ids. -/
theorem poll_forward_batch_amended (store : List Row) (w : Int)
    (chat : Option Int) (lim : Nat) (hwf : StoreWF store) :
    (poll_messages store w chat lim).messages =
      (newestRows (lim + 1) (matchingRows store chat w)).take lim ∧
    (poll_messages store w chat lim).messages.Pairwise
      (fun a b => a.rowid < b.rowid) ∧
    (∀ m ∈ (poll_messages store w chat lim).messages, w < m.rowid) :=
  ⟨poll_messages_of_wf hwf w chat lim,
   poll_messages_pairwise hwf w chat lim,
   fun m hm => rowMatches_after (mem_poll_messages hm).2⟩

/-- Witness for C1 (amended) at `cexStore`, watermark 0, limit 1. -/
theorem poll_forward_batch_amended_witness :
    (poll_messages cexStore 0 none 1).messages =
      (newestRows 2 (matchingRows cexStore none 0)).take 1 ∧
    (poll_messages cexStore 0 none 1).messages.Pairwise
      (fun a b => a.rowid < b.rowid) ∧
    (∀ m ∈ (poll_messages cexStore 0 none 1).messages, (0 : Int) < m.rowid) :=
  poll_forward_batch_amended cexStore 0 none 1 (by decide)

/-- C5 counterexample: with limit 1 against `cexStore`, a poll from 0 is
truncated (`has_more = true`) and returns `last_rowid = 2`; re-polling
the unchanged store with that `last_rowid` returns the remaining row
(id 3) — not the empty list with the same `last_rowid` that the claim
asserts for every repoll. -/
theorem poll_replay_cex :
    (poll_messages cexStore 0 none 1).lastRowid = 2 ∧
    (poll_messages cexStore (poll_messages cexStore 0 none 1).lastRowid
        none 1).messages ≠ [] ∧
    (poll_messages cexStore (poll_messages cexStore 0 none 1).lastRowid
        none 1).lastRowid = 3 := by
  refine ⟨?_, ?_, ?_⟩ <;> decide

/-- C5 (amended): a poll returns messages in ascending id order, each
with id strictly above `after_id`; `last_rowid` is the maximum returned
id, and equals `after_id` when nothing is returned; and whenever a poll
reports `has_more = false`, re-polling the unchanged store with its
`last_rowid` yields an empty message list and the same `last_rowid` (a
truncated poll leaves newer rows behind, so only then can the repoll be
non-empty). -/
theorem poll_contract_amended (store : List Row) (after : Int)
    (chat : Option Int) (lim : Nat) (hwf : StoreWF store) :
    (poll_messages store after chat lim).messages.Pairwise
      (fun a b => a.rowid < b.rowid) ∧
    (∀ m ∈ (poll_messages store after chat lim).messages, after < m.rowid) ∧
    ((poll_messages store after chat lim).messages = [] →
      (poll_messages store after chat lim).lastRowid = after) ∧
    (∀ m ∈ (poll_messages store after chat lim).messages,
      m.rowid ≤ (poll_messages store after chat lim).lastRowid) ∧
    ((poll_messages store after chat lim).messages ≠ [] →
      ∃ m ∈ (poll_messages store after chat lim).messages,
        m.rowid = (poll_messages store after chat lim).lastRowid) ∧
    ((poll_messages store after chat lim).hasMore = false →
      (poll_messages store
          (poll_messages store after chat lim).lastRowid chat lim).messages = [] ∧
      (poll_messages store
          (poll_messages store after chat lim).lastRowid chat lim).lastRowid =
        (poll_messages store after chat lim).lastRowid) := by
  refine ⟨poll_messages_pairwise hwf after chat lim,
    fun m hm => rowMatches_after (mem_poll_messages hm).2, ?_, ?_, ?_, ?_⟩
  · intro hnil
    rw [poll_messages_lastRowid, List.getLast?_eq_none_iff.mpr hnil]
  · exact poll_messages_le_lastRowid hwf after chat lim
  · intro hne
    rcases hg : (poll_messages store after chat lim).messages.getLast? with _ | g
    · exact absurd (List.getLast?_eq_none_iff.mp hg) hne
    · obtain ⟨ys, hys⟩ := List.getLast?_eq_some_iff.mp hg
      refine ⟨g, ?_, ?_⟩
      · rw [hys]; exact List.mem_append_right ys (List.mem_singleton_self g)
      · rw [poll_messages_lastRowid, hg]
  · intro hnomore
    have hmatch := poll_repoll_matching_nil hwf hnomore
    have hlen := poll_messages_length store
      (poll_messages store after chat lim).lastRowid chat lim
    rw [hmatch] at hlen
    have hnil : (poll_messages store
        (poll_messages store after chat lim).lastRowid chat lim).messages = [] := by
      apply List.eq_nil_of_length_eq_zero
      simpa using hlen
    refine ⟨hnil, ?_⟩
    rw [poll_messages_lastRowid, List.getLast?_eq_none_iff.mpr hnil]

/-- Witness for C5 (amended) at `cexStore`, `after_id = 0`, limit 5 (no
truncation, so the repoll clause fires). -/
theorem poll_contract_amended_witness :
    (poll_messages cexStore 0 none 5).messages.Pairwise
      (fun a b => a.rowid < b.rowid) ∧
    (∀ m ∈ (poll_messages cexStore 0 none 5).messages, (0 : Int) < m.rowid) ∧
    ((poll_messages cexStore 0 none 5).messages = [] →
      (poll_messages cexStore 0 none 5).lastRowid = 0) ∧
    (∀ m ∈ (poll_messages cexStore 0 none 5).messages,
      m.rowid ≤ (poll_messages cexStore 0 none 5).lastRowid) ∧
    ((poll_messages cexStore 0 none 5).messages ≠ [] →
      ∃ m ∈ (poll_messages cexStore 0 none 5).messages,
        m.rowid = (poll_messages cexStore 0 none 5).lastRowid) ∧
    ((poll_messages cexStore 0 none 5).hasMore = false →
      (poll_messages cexStore
          (poll_messages cexStore 0 none 5).lastRowid none 5).messages = [] ∧
      (poll_messages cexStore
          (poll_messages cexStore 0 none 5).lastRowid none 5).lastRowid =
        (poll_messages cexStore 0 none 5).lastRowid) :=
  poll_contract_amended cexStore 0 none 5 (by decide)

theorem websocket_tick_spec (store : List Row) (chat : Option Int) (w : Int) :
    w ≤ (websocket_tick store chat w).1 ∧
    ∀ m ∈ (websocket_tick store chat w).2, w < m.rowid := by
  have hmem : ∀ m ∈ sortByRowidAsc (get_messages store chat 100 (some w)),
      w < m.rowid := by
    intro m hm
    have h1 : m ∈ get_messages store chat 100 (some w) :=
      (sortByRowidAsc_perm _).mem_iff.mp hm
    exact rowMatches_after (mem_get_messages h1).2
  unfold websocket_tick
  dsimp only
  split
  · exact ⟨le_refl w, by simp⟩
  · split
    · next g hg =>
      refine ⟨?_, hmem⟩
      have hgm : g ∈ sortByRowidAsc (get_messages store chat 100 (some w)) := by
        obtain ⟨ys, hys⟩ := List.getLast?_eq_some_iff.mp hg
        rw [hys]
        exact List.mem_append_right ys (List.mem_singleton_self g)
      exact le_of_lt (hmem g hgm)
    · exact ⟨le_refl w, by simp⟩

theorem websocket_run_cons (chat : Option Int) (w : Int) (s : List Row)
    (rest : List (List Row)) :
    websocket_run chat w (s :: rest) =
      (w, (websocket_tick s chat w).1, (websocket_tick s chat w).2)
        :: websocket_run chat (websocket_tick s chat w).1 rest := rfl

theorem websocket_run_head_input (chat : Option Int) (v : Int)
    (ss : List (List Row)) (y : Int × Int × List Row)
    (h : (websocket_run chat v ss).head? = some y) : y.1 = v := by
  cases ss with
  | nil => simp [websocket_run] at h
  | cons a b =>
    rw [websocket_run_cons] at h
    simp only [List.head?_cons, Option.some.injEq] at h
    rw [← h]

/-- C3: across any sequence of forward fetches of one Live Channel
connection against a fixed chat (no watermark-reset command), every
pushed row of a fetch has id strictly above that fetch's input
watermark, each fetch's output watermark is at least its input
watermark, and consecutive output watermarks never decrease. -/
theorem websocket_monotonic_watermark (chat : Option Int) (w : Int)
    (stores : List (List Row)) :
    (∀ e ∈ websocket_run chat w stores,
      e.1 ≤ e.2.1 ∧ ∀ m ∈ e.2.2, e.1 < m.rowid) ∧
    (websocket_run chat w stores).Chain' (fun a b => a.2.1 ≤ b.2.1) := by
  induction stores generalizing w with
  | nil => exact ⟨by simp [websocket_run], by simp [websocket_run]⟩
  | cons s rest ih =>
    obtain ⟨ih1, ih2⟩ := ih (websocket_tick s chat w).1
    constructor
    · intro e he
      rw [websocket_run_cons] at he
      rcases List.mem_cons.mp he with rfl | hmem
      · exact websocket_tick_spec s chat w
      · exact ih1 e hmem
    · rw [websocket_run_cons]
      refine List.chain'_cons'.mpr ⟨?_, ih2⟩
      intro y hy
      have hy1 : y.1 = (websocket_tick s chat w).1 :=
        websocket_run_head_input chat (websocket_tick s chat w).1 rest y hy
      have hy2 := (ih1 y (List.mem_of_mem_head? hy)).1
      show (websocket_tick s chat w).1 ≤ y.2.1
      omega

theorem dropWhile_lt_eq_filter_of_sorted {q : List Int} {c : Int}
    (h : q.Pairwise (fun a b => a ≤ b)) :
    q.dropWhile (fun ts => decide (ts < c)) =
      q.filter (fun ts => decide (c ≤ ts)) := by
  induction q with
  | nil => rfl
  | cons a t ih =>
    obtain ⟨ha, ht⟩ := List.pairwise_cons.mp h
    by_cases hac : a < c
    · rw [List.dropWhile_cons, if_pos (decide_eq_true hac), ih ht,
        List.filter_cons, if_neg (by simpa using hac)]
    · rw [List.dropWhile_cons, if_neg (by simpa using hac),
        List.filter_cons, if_pos (by simpa using hac)]
      congr 1
      exact (List.filter_eq_self.mpr
        (fun x hx => decide_eq_true (le_trans (not_lt.mp hac) (ha x hx)))).symm

theorem pruneTimestamps_eq_filter {now : Int} {q : List Int}
    (h : q.Pairwise (fun a b => a ≤ b)) :
    pruneTimestamps now q =
      q.filter (fun ts => decide (now - RATE_LIMIT_WINDOW ≤ ts)) :=
  dropWhile_lt_eq_filter_of_sorted h

/-- C10: the POST /send rate limiter only counts successful sends: on
every reply other than success — the 429 rate-limit rejection and every
classified send error — the timestamp deque is exactly the pruned input
(no timestamp appended), so the set of timestamps inside the sliding
window, and hence the remaining budget, is unchanged; the timestamp is
appended only on the success reply. -/
theorem send_rate_limit_counts_only_success (now : Int) (q : List Int)
    (result : SendResult) (hsorted : q.Pairwise (fun a b => a ≤ b)) :
    ((send_message now q result).2 ≠ SendReply.ok →
      (send_message now q result).1 = pruneTimestamps now q ∧
      pruneTimestamps now (send_message now q result).1 = pruneTimestamps now q ∧
      (send_message now q result).1.filter
          (fun ts => decide (now - RATE_LIMIT_WINDOW ≤ ts))
        = q.filter (fun ts => decide (now - RATE_LIMIT_WINDOW ≤ ts))) ∧
    (result.success = false → (send_message now q result).2 ≠ SendReply.ok) ∧
    ((send_message now q result).2 = SendReply.ok →
      (send_message now q result).1 = pruneTimestamps now q ++ [now]) := by
  have hprune : ∀ (r : List Int), r = pruneTimestamps now q →
      pruneTimestamps now r = pruneTimestamps now q ∧
      r.filter (fun ts => decide (now - RATE_LIMIT_WINDOW ≤ ts))
        = q.filter (fun ts => decide (now - RATE_LIMIT_WINDOW ≤ ts)) := by
    intro r hr
    subst hr
    refine ⟨List.dropWhile_idempotent _ _, ?_⟩
    rw [pruneTimestamps_eq_filter hsorted, List.filter_filter]
    exact List.filter_congr (fun x _ => by simp)
  unfold send_message
  dsimp only
  split
  · refine ⟨fun _ => ⟨rfl, hprune _ rfl⟩, fun _ => by simp, fun hok => ?_⟩
    exact absurd hok (by simp)
  · split
    · refine ⟨fun hne => absurd rfl hne, fun hf => ?_, fun _ => rfl⟩
      next _ hsucc => rw [hsucc] at hf; simp at hf
    · refine ⟨fun _ => ⟨rfl, hprune _ rfl⟩, fun _ => by simp, fun hok => ?_⟩
      exact absurd hok (by simp)

/-- Witness for C10: a failed send (timeout) at time 100 with sorted
deque [10, 50, 90]. -/
theorem send_rate_limit_counts_only_success_witness :
    ((send_message 100 [10, 50, 90] ⟨false, some "timeout"⟩).2 ≠ SendReply.ok →
      (send_message 100 [10, 50, 90] ⟨false, some "timeout"⟩).1 =
        pruneTimestamps 100 [10, 50, 90] ∧
      pruneTimestamps 100 (send_message 100 [10, 50, 90] ⟨false, some "timeout"⟩).1 =
        pruneTimestamps 100 [10, 50, 90] ∧
      (send_message 100 [10, 50, 90] ⟨false, some "timeout"⟩).1.filter
          (fun ts => decide ((100 : Int) - RATE_LIMIT_WINDOW ≤ ts))
        = [10, 50, 90].filter (fun ts => decide ((100 : Int) - RATE_LIMIT_WINDOW ≤ ts))) ∧
    ((false : Bool) = false →
      (send_message 100 [10, 50, 90] ⟨false, some "timeout"⟩).2 ≠ SendReply.ok) ∧
    ((send_message 100 [10, 50, 90] ⟨false, some "timeout"⟩).2 = SendReply.ok →
      (send_message 100 [10, 50, 90] ⟨false, some "timeout"⟩).1 =
        pruneTimestamps 100 [10, 50, 90] ++ [100]) :=
  send_rate_limit_counts_only_success 100 [10, 50, 90] ⟨false, some "timeout"⟩
    (by decide)

theorem mem_setInsertInt {i j : Int} {s : List Int} :
    i ∈ setInsertInt j s ↔ i = j ∨ i ∈ s := by
  unfold setInsertInt
  split
  · next hj =>
    constructor
    · exact fun h => Or.inr h
    · rintro (rfl | h)
      · exact hj
      · exact h
  · exact List.mem_cons

theorem mem_setUnionRowids {ms : List Row} :
    ∀ {s : List Int} {i : Int},
      i ∈ setUnionRowids s ms ↔ i ∈ s ∨ ∃ m ∈ ms, m.rowid = i := by
  induction ms with
  | nil => intro s i; simp [setUnionRowids]
  | cons m t ih =>
    intro s i
    rw [show setUnionRowids s (m :: t) =
        setUnionRowids (setInsertInt m.rowid s) t from rfl, ih]
    rw [mem_setInsertInt]
    simp only [List.mem_cons, eq_comm (a := i)]
    constructor
    · rintro ((h | h) | ⟨x, hx, hxr⟩)
      · exact Or.inr ⟨m, Or.inl rfl, h⟩
      · exact Or.inl h
      · exact Or.inr ⟨x, Or.inr hx, hxr⟩
    · rintro (h | ⟨x, (rfl | hx), hxr⟩)
      · exact Or.inl (Or.inr h)
      · exact Or.inl (Or.inl hxr)
      · exact Or.inr ⟨x, hx, hxr⟩

theorem mem_seenOf {ms : List Row} {i : Int} :
    i ∈ seenOf ms ↔ ∃ m ∈ ms, m.rowid = i := by
  unfold seenOf
  rw [mem_setUnionRowids]
  simp

theorem renderMessages_messages (s : MLState) :
    (renderMessages s).messages = s.messages := by
  unfold renderMessages; split <;> rfl

theorem renderMessages_seen (s : MLState) :
    (renderMessages s).seen = s.seen := by
  unfold renderMessages; split <;> rfl

theorem renderMessages_oldestRowid (s : MLState) :
    (renderMessages s).oldestRowid = s.oldestRowid := by
  unfold renderMessages; split <;> rfl

theorem renderMessages_pendingTexts (s : MLState) :
    (renderMessages s).pendingTexts = s.pendingTexts := by
  unfold renderMessages; split <;> rfl

theorem renderMessages_hasMore (s : MLState) :
    (renderMessages s).hasMore = s.hasMore := by
  unfold renderMessages; split <;> rfl

theorem renderMessages_currentChat (s : MLState) :
    (renderMessages s).currentChat = s.currentChat := by
  unfold renderMessages; split <;> rfl

/-- A row of the previously selected chat, used by the C9 and C8
counterexamples. -/
def prevRow : Row := ⟨7, 7, some 1, some "old", false⟩

/-- An engine state that currently shows chat 1 with one loaded row. -/
def c9State : MLState :=
  { currentChat := some 1, messages := [prevRow], pendingTexts := [],
    seen := [7], oldestRowid := some 7, hasMore := false,
    loadingMore := false, bubbles := renderBubbles [prevRow],
    placeholder := none }

/-- C9 counterexample: switching from chat 1 to chat 2 with a failing
initial fetch leaves the previous chat's rows inside the engine's
`messages` list — the claim that the engine state is left empty (no
messages retained from the previously selected chat) is false. -/
theorem load_chat_failure_cex :
    (load_chat c9State 2 (.error ())).messages = [prevRow] ∧
    (load_chat c9State 2 (.error ())).messages ≠ [] ∧
    (load_chat c9State 2 (.error ())).currentChat = some 2 := by
  refine ⟨?_, ?_, ?_⟩ <;> decide

/-- C9 (amended): switching chats immediately clears `seen_ids`, the
pending-text set, the pagination cursor and the flags and shows a
loading placeholder, but `_messages` is only assigned on a successful
fetch. On success the state holds exactly the fetched page with
`oldest_loaded_id = min(ids)`, `has_more = (count == PAGE_SIZE)` and
`seen_ids` the ids of the page. On failure an error placeholder is
shown (no bubbles stay rendered), while the internal `messages` list
still holds the previously selected chat's rows. -/
theorem load_chat_amended (s : MLState) (chat : Int) :
    ((load_chat s chat (.error ())).messages = s.messages ∧
     (load_chat s chat (.error ())).seen = [] ∧
     (load_chat s chat (.error ())).pendingTexts = [] ∧
     (load_chat s chat (.error ())).oldestRowid = none ∧
     (load_chat s chat (.error ())).bubbles = [] ∧
     (load_chat s chat (.error ())).placeholder = some "Error loading messages" ∧
     (load_chat s chat (.error ())).currentChat = some chat) ∧
    (∀ msgs : List Row, msgs ≠ [] →
      (load_chat s chat (.ok msgs)).messages = msgs ∧
      (load_chat s chat (.ok msgs)).oldestRowid = some (minRowid msgs) ∧
      (load_chat s chat (.ok msgs)).hasMore = (msgs.length == PAGE_SIZE) ∧
      (load_chat s chat (.ok msgs)).pendingTexts = [] ∧
      (∀ i : Int, i ∈ (load_chat s chat (.ok msgs)).seen ↔
        ∃ m ∈ msgs, m.rowid = i)) := by
  constructor
  · exact ⟨rfl, rfl, rfl, rfl, rfl, rfl, rfl⟩
  · intro msgs hne
    have hemp : msgs.isEmpty = false := by
      cases msgs with
      | nil => exact absurd rfl hne
      | cons a t => rfl
    unfold load_chat
    dsimp only
    rw [hemp]
    refine ⟨renderMessages_messages _, ?_, ?_, renderMessages_pendingTexts _, ?_⟩
    · rw [renderMessages_oldestRowid]
      rfl
    · rw [renderMessages_hasMore]
      rfl
    · intro i
      rw [renderMessages_seen]
      exact mem_seenOf

/-- Witness for C9 (amended), success clause, at a one-row page. -/
theorem load_chat_amended_witness :
    (load_chat mlInit 1 (.ok [prevRow])).messages = [prevRow] ∧
    (load_chat mlInit 1 (.ok [prevRow])).oldestRowid = some (minRowid [prevRow]) ∧
    (load_chat mlInit 1 (.ok [prevRow])).hasMore = ([prevRow].length == PAGE_SIZE) ∧
    (load_chat mlInit 1 (.ok [prevRow])).pendingTexts = [] ∧
    (∀ i : Int, i ∈ (load_chat mlInit 1 (.ok [prevRow])).seen ↔
      ∃ m ∈ [prevRow], m.rowid = i) :=
  (load_chat_amended mlInit 1).2 [prevRow] (by decide)

def rowA1 : Row := ⟨1, 1, some 1, some "a1", false⟩
def rowA2 : Row := ⟨2, 2, some 1, some "a2", false⟩
def rowB10 : Row := ⟨10, 10, some 2, some "b", false⟩

/-- Store for the C8 counterexample: chat 1 holds rows 1 and 2, chat 2
holds row 10. -/
def c8Store : List Row := [rowA1, rowA2, rowB10]

/-- Engine state showing chat 1 with row 2 loaded and older rows left. -/
def c8State : MLState :=
  { currentChat := some 1, messages := [rowA2], pendingTexts := [],
    seen := [2], oldestRowid := some 2, hasMore := true,
    loadingMore := false, bubbles := renderBubbles [rowA2],
    placeholder := none }

/-- C8 counterexample: a load-older fetch for chat 1 starts
(`loadMoreStart` captures chat 1, cursor 2), the user switches to chat 2
(`load_chat` succeeds with chat 2's page), and then the stale chat-1
response — exactly what `get_messages_before` returns for chat 1 —
arrives. The claim says it is discarded without mutating state; in fact
`loadMoreFinish` appends the chat-1 row to the chat-2 message list. -/
theorem stale_response_cex :
    loadMoreStart c8State = some ({ c8State with loadingMore := true }, ⟨1, 2⟩) ∧
    get_messages_before c8Store (some 1) PAGE_SIZE 2 = [rowA1] ∧
    (loadMoreFinish (load_chat { c8State with loadingMore := true } 2 (.ok [rowB10]))
        (.ok (get_messages_before c8Store (some 1) PAGE_SIZE 2))).messages
      = [rowB10, rowA1] ∧
    (loadMoreFinish (load_chat { c8State with loadingMore := true } 2 (.ok [rowB10]))
        (.ok (get_messages_before c8Store (some 1) PAGE_SIZE 2))).messages
      ≠ (load_chat { c8State with loadingMore := true } 2 (.ok [rowB10])).messages ∧
    (loadMoreFinish (load_chat { c8State with loadingMore := true } 2 (.ok [rowB10]))
        (.ok (get_messages_before c8Store (some 1) PAGE_SIZE 2))).currentChat
      = some 2 ∧
    rowA1.chatId = some 1 := by
  refine ⟨?_, ?_, ?_, ?_, ?_, ?_⟩ <;> decide

/-- C8 (amended): the engine makes no chat-identity comparison before
applying a fetch response: the continuation of `_load_more_messages`
applies any non-empty response to whatever state the widget holds when
the response arrives — appending the rows to `messages`, unioning their
ids into `seen_ids` and moving the pagination cursor — so a stale
response for a previously selected chat mutates the newly selected
chat's state instead of being discarded. -/
theorem stale_response_applied (s : MLState) (older : List Row)
    (hne : older ≠ []) :
    (loadMoreFinish s (.ok older)).messages = s.messages ++ older ∧
    (loadMoreFinish s (.ok older)).oldestRowid = some (minRowid older) ∧
    (∀ i : Int, i ∈ (loadMoreFinish s (.ok older)).seen ↔
      i ∈ s.seen ∨ ∃ m ∈ older, m.rowid = i) := by
  have hemp : older.isEmpty = false := by
    cases older with
    | nil => exact absurd rfl hne
    | cons a t => rfl
  unfold loadMoreFinish
  dsimp only
  rw [hemp]
  simp only [Bool.false_eq_true, if_false]
  refine ⟨?_, ?_, ?_⟩
  · rw [renderMessages_messages]
  · rw [renderMessages_oldestRowid]
  · intro i
    rw [renderMessages_seen]
    exact mem_setUnionRowids

/-- Witness for C8 (amended): a one-row stale response applied to the
fresh widget state. -/
theorem stale_response_applied_witness :
    (loadMoreFinish mlInit (.ok [rowA1])).messages = mlInit.messages ++ [rowA1] ∧
    (loadMoreFinish mlInit (.ok [rowA1])).oldestRowid = some (minRowid [rowA1]) ∧
    (∀ i : Int, i ∈ (loadMoreFinish mlInit (.ok [rowA1])).seen ↔
      i ∈ mlInit.seen ∨ ∃ m ∈ [rowA1], m.rowid = i) :=
  stale_response_applied mlInit [rowA1] (by decide)

theorem confirmFirstPending_of_unique (T : String) (m : Row) (bs : List Bubble)
    (b0 : Bubble) (hb : bs.filter (fun b => bubbleTextIs T b) = [b0])
    (hp : b0.pending = true) (hm : m.text = some T) :
    ∃ bs2, confirmFirstPending T m bs = some bs2 ∧
      bs2.filter (fun b => bubbleTextIs T b) =
        [{ pending := false, failed := false, msg := m }] ∧
      bs2.length = bs.length := by
  induction bs with
  | nil => simp at hb
  | cons b rest ih =>
    by_cases htb : bubbleTextIs T b = true
    · rw [List.filter_cons, if_pos htb] at hb
      have hb0 : b = b0 ∧ rest.filter (fun b => bubbleTextIs T b) = [] := by
        have := List.cons.injEq b (rest.filter (fun b => bubbleTextIs T b)) b0 [] ▸ hb
        exact ⟨(List.cons.inj hb).1, (List.cons.inj hb).2⟩
      obtain ⟨rfl, hrest⟩ := hb0
      refine ⟨{ pending := false, failed := false, msg := m } :: rest, ?_, ?_, by simp⟩
      · unfold confirmFirstPending
        rw [if_pos (by rw [hp, htb]; rfl)]
      · rw [List.filter_cons,
          if_pos (show bubbleTextIs T { pending := false, failed := false, msg := m } = true by
            unfold bubbleTextIs; rw [hm]; simp),
          hrest]
    · rw [List.filter_cons, if_neg htb] at hb
      obtain ⟨bs2, h1, h2, h3⟩ := ih hb
      refine ⟨b :: bs2, ?_, ?_, by simp [h3]⟩
      · unfold confirmFirstPending
        rw [if_neg (by simp [htb]), h1]
      · rw [List.filter_cons, if_neg htb, h2]

/-- C4: pending-to-confirmed convergence: if exactly one bubble with
text `T` is rendered and it is pending, `T` is in the pending-text set,
and a pushed outgoing row with text `T` and an unseen rowid is processed
by `add_message`, then afterwards exactly one bubble with text `T` is
rendered — the pending bubble replaced in place by the confirmed row
(bubble count unchanged, nothing appended to `messages`) — `T` is no
longer in the pending-text set, and the rowid is in `seen_ids`. -/
theorem pending_confirmed_in_place (s : MLState) (m : Row) (T : String)
    (b0 : Bubble)
    (hb : s.bubbles.filter (fun b => bubbleTextIs T b) = [b0])
    (hp : b0.pending = true)
    (hT : T ∈ s.pendingTexts)
    (hout : m.isFromMe = true)
    (htext : m.text = some T)
    (hseen : m.rowid ∉ s.seen) :
    (add_message s m).bubbles.filter (fun b => bubbleTextIs T b) =
      [{ pending := false, failed := false, msg := m }] ∧
    (add_message s m).bubbles.length = s.bubbles.length ∧
    T ∉ (add_message s m).pendingTexts ∧
    m.rowid ∈ (add_message s m).seen ∧
    (add_message s m).messages = s.messages := by
  have ht : msgText m = T := by unfold msgText; rw [htext]; rfl
  have hcontains : s.pendingTexts.contains T = true := by simpa using hT
  obtain ⟨bs2, h1, h2, h3⟩ :=
    confirmFirstPending_of_unique T m s.bubbles b0 hb hp htext
  unfold add_message
  rw [if_neg hseen]
  dsimp only
  rw [ht, if_pos (by rw [hout, hcontains]; rfl), h1]
  dsimp only
  refine ⟨h2, h3, ?_, ?_, rfl⟩
  · unfold setDiscardStr
    simp
  · exact mem_setInsertInt.mpr (Or.inl rfl)

/-- State used by the C4 and C6 witnesses: chat 1 selected, one pending
bubble for the submitted text "hi". -/
def pendingState : MLState :=
  add_pending_message { mlInit with currentChat := some 1 } "hi"

/-- The confirmed outgoing row for "hi" pushed by the server. -/
def confirmRow : Row := ⟨5, 5, some 1, some "hi", true⟩

/-- Witness for C4 at `pendingState` and `confirmRow`. -/
theorem pending_confirmed_in_place_witness :
    (add_message pendingState confirmRow).bubbles.filter
        (fun b => bubbleTextIs "hi" b) =
      [{ pending := false, failed := false, msg := confirmRow }] ∧
    (add_message pendingState confirmRow).bubbles.length =
      pendingState.bubbles.length ∧
    "hi" ∉ (add_message pendingState confirmRow).pendingTexts ∧
    confirmRow.rowid ∈ (add_message pendingState confirmRow).seen ∧
    (add_message pendingState confirmRow).messages = pendingState.messages :=
  pending_confirmed_in_place pendingState confirmRow "hi"
    { pending := true, failed := false,
      msg := ⟨-1, 0, some 1, some "hi", true⟩ }
    (by decide) (by decide) (by decide) (by decide) (by decide) (by decide)

theorem confirmFirstPending_some_char (t : String) (m : Row) :
    ∀ {bs bs2 : List Bubble}, confirmFirstPending t m bs = some bs2 →
    ∃ pre bp post, bs = pre ++ bp :: post ∧
      bs2 = pre ++ { pending := false, failed := false, msg := m } :: post ∧
      bp.pending = true ∧ bubbleTextIs t bp = true ∧
      ∀ x ∈ pre, ¬ (x.pending && bubbleTextIs t x) = true := by
  intro bs
  induction bs with
  | nil => intro bs2 h; simp [confirmFirstPending] at h
  | cons b rest ih =>
    intro bs2 h
    unfold confirmFirstPending at h
    by_cases hc : (b.pending && bubbleTextIs t b) = true
    · rw [if_pos hc] at h
      refine ⟨[], b, rest, rfl, ?_, ?_, ?_, by simp⟩
      · rw [← Option.some.inj h]; rfl
      · exact (Bool.and_eq_true _ _ |>.mp hc).1
      · exact (Bool.and_eq_true _ _ |>.mp hc).2
    · rw [if_neg hc] at h
      cases h2 : confirmFirstPending t m rest with
      | none => rw [h2] at h; exact absurd h (by simp)
      | some bs3 =>
        rw [h2] at h
        obtain ⟨pre, bp, post, e1, e2, e3, e4, e5⟩ := ih h2
        refine ⟨b :: pre, bp, post, by rw [List.cons_append, e1],
          ?_, e3, e4, ?_⟩
        · rw [← Option.some.inj h, List.cons_append, e2]
        · intro x hx
          rcases List.mem_cons.mp hx with rfl | hx2
          · exact fun hcc => hc hcc
          · exact e5 x hx2

theorem appendNewMessage_bubbles (s : MLState) (m : Row) :
    (appendNewMessage s m).bubbles =
      s.bubbles ++ [{ pending := false, failed := false, msg := m }] := rfl

theorem add_message_preserves_nonpending (s : MLState) (m : Row) (b : Bubble)
    (hmem : b ∈ s.bubbles) (hnp : b.pending = false) :
    b ∈ (add_message s m).bubbles := by
  unfold add_message
  by_cases hseen : m.rowid ∈ s.seen
  · rw [if_pos hseen]; exact hmem
  · rw [if_neg hseen]
    dsimp only
    by_cases hc : (m.isFromMe && s.pendingTexts.contains (msgText m)) = true
    · rw [if_pos hc]
      cases h1 : confirmFirstPending (msgText m) m
          { s with pendingTexts := setDiscardStr (msgText m) s.pendingTexts,
                   seen := setInsertInt m.rowid s.seen }.bubbles with
      | none =>
        exact List.mem_append_left _ hmem
      | some bs2 =>
        obtain ⟨pre, bp, post, e1, e2, e3, _, _⟩ :=
          confirmFirstPending_some_char (msgText m) m h1
        have hmem2 : b ∈ pre ++ bp :: post := by rw [← e1]; exact hmem
        show b ∈ bs2
        rw [e2]
        rcases List.mem_append.mp hmem2 with h3 | h3
        · exact List.mem_append_left _ h3
        · rcases List.mem_cons.mp h3 with rfl | h4
          · rw [e3] at hnp; exact absurd hnp (by simp)
          · exact List.mem_append_right _ (List.mem_cons_of_mem _ h4)
    · rw [if_neg hc]
      exact List.mem_append_left _ hmem

theorem applyBatch_preserves_nonpending (rows : List Row) :
    ∀ (s : MLState) (b : Bubble), b ∈ s.bubbles → b.pending = false →
      b ∈ (applyBatch s rows).bubbles := by
  induction rows with
  | nil => intro s b h _; exact h
  | cons r t ih =>
    intro s b h hnp
    exact ih (add_message s r) b (add_message_preserves_nonpending s r b h hnp) hnp

theorem add_message_preserves_pendingText (s : MLState) (m : Row) (T : String)
    (hT : T ∈ s.pendingTexts) (hnm : m.isFromMe = false ∨ msgText m ≠ T) :
    T ∈ (add_message s m).pendingTexts := by
  unfold add_message
  by_cases hseen : m.rowid ∈ s.seen
  · rw [if_pos hseen]; exact hT
  · rw [if_neg hseen]
    dsimp only
    by_cases hc : (m.isFromMe && s.pendingTexts.contains (msgText m)) = true
    · rw [if_pos hc]
      have hne : msgText m ≠ T := by
        rcases hnm with h | h
        · rw [(Bool.and_eq_true _ _ |>.mp hc).1] at h
          exact absurd h (by simp)
        · exact h
      have hTd : T ∈ setDiscardStr (msgText m) s.pendingTexts := by
        unfold setDiscardStr
        exact List.mem_filter.mpr ⟨hT, by simp [Ne.symm hne]⟩
      cases h1 : confirmFirstPending (msgText m) m
          { s with pendingTexts := setDiscardStr (msgText m) s.pendingTexts,
                   seen := setInsertInt m.rowid s.seen }.bubbles with
      | none => exact hTd
      | some bs2 => exact hTd
    · rw [if_neg hc]
      exact hT

theorem applyBatch_preserves_pendingText (rows : List Row) :
    ∀ (s : MLState) (T : String), T ∈ s.pendingTexts →
      (∀ m ∈ rows, m.isFromMe = false ∨ msgText m ≠ T) →
      T ∈ (applyBatch s rows).pendingTexts := by
  induction rows with
  | nil => intro s T h _; exact h
  | cons r t ih =>
    intro s T h hall
    exact ih (add_message s r) T
      (add_message_preserves_pendingText s r T h (hall r (List.mem_cons_self r t)))
      (fun m hm => hall m (List.mem_cons_of_mem r hm))

theorem markFailedFirst_of_unique (T : String) (bs : List Bubble) (b0 : Bubble)
    (hb : bs.filter (fun b => b.pending && bubbleTextIs T b) = [b0]) :
    { b0 with pending := false, failed := true } ∈ markFailedFirst T bs := by
  induction bs with
  | nil => simp at hb
  | cons b rest ih =>
    by_cases hc : (b.pending && bubbleTextIs T b) = true
    · rw [List.filter_cons, if_pos hc] at hb
      have hb0 : b = b0 := (List.cons.inj hb).1
      unfold markFailedFirst
      rw [if_pos hc, hb0]
      exact List.mem_cons_self _ _
    · rw [List.filter_cons, if_neg hc] at hb
      unfold markFailedFirst
      rw [if_neg hc]
      exact List.mem_cons_of_mem b (ih hb)

/-- C6: pending never silently vanishes: if the (unique) pending bubble
for submitted text `T` exists and its send fails, `mark_message_failed`
keeps the bubble rendered with the failed flag set, `T` stays in the
pending-text set, and no subsequent processing of pushed batches ever
removes that bubble (`add_message` only replaces pending bubbles, and a
failed bubble is no longer pending); `T` is only discarded from the
pending-text set by a batch that actually carries a matching confirmed
outgoing row with text `T`. -/
theorem pending_failed_persists (s : MLState) (T : String) (b0 : Bubble)
    (hb : s.bubbles.filter (fun b => b.pending && bubbleTextIs T b) = [b0])
    (hT : T ∈ s.pendingTexts) :
    (mark_message_failed s T).pendingTexts = s.pendingTexts ∧
    T ∈ (mark_message_failed s T).pendingTexts ∧
    { b0 with pending := false, failed := true } ∈
      (mark_message_failed s T).bubbles ∧
    (∀ rows : List Row,
      { b0 with pending := false, failed := true } ∈
        (applyBatch (mark_message_failed s T) rows).bubbles) ∧
    (∀ rows : List Row, (∀ m ∈ rows, m.isFromMe = false ∨ msgText m ≠ T) →
      T ∈ (applyBatch (mark_message_failed s T) rows).pendingTexts) := by
  have hmem : { b0 with pending := false, failed := true } ∈
      (mark_message_failed s T).bubbles :=
    markFailedFirst_of_unique T s.bubbles b0 hb
  refine ⟨rfl, hT, hmem, ?_, ?_⟩
  · intro rows
    exact applyBatch_preserves_nonpending rows (mark_message_failed s T) _ hmem rfl
  · intro rows hall
    exact applyBatch_preserves_pendingText rows (mark_message_failed s T) T hT hall

/-- An unrelated incoming row, used by the C6 witness. -/
def otherRow : Row := ⟨6, 6, some 1, some "yo", false⟩

/-- Witness for C6 at `pendingState` after a failed send of "hi",
followed by a pushed batch holding one unrelated incoming row. -/
theorem pending_failed_persists_witness :
    (mark_message_failed pendingState "hi").pendingTexts =
      pendingState.pendingTexts ∧
    "hi" ∈ (mark_message_failed pendingState "hi").pendingTexts ∧
    ({ pending := false, failed := true,
       msg := ⟨-1, 0, some 1, some "hi", true⟩ } : Bubble) ∈
      (mark_message_failed pendingState "hi").bubbles ∧
    ({ pending := false, failed := true,
       msg := ⟨-1, 0, some 1, some "hi", true⟩ } : Bubble) ∈
      (applyBatch (mark_message_failed pendingState "hi") [otherRow]).bubbles ∧
    "hi" ∈ (applyBatch (mark_message_failed pendingState "hi") [otherRow]).pendingTexts := by
  have h := pending_failed_persists pendingState "hi"
    { pending := true, failed := false,
      msg := ⟨-1, 0, some 1, some "hi", true⟩ }
    (by decide) (by decide)
  exact ⟨h.1, h.2.1, h.2.2.1, h.2.2.2.1 [otherRow],
    h.2.2.2.2 [otherRow] (by decide)⟩

/-- The row ids carried by the rendered non-pending bubbles (pending
bubbles only hold the sentinel id -1, not a store row id). -/
def confirmedRowids (bs : List Bubble) : List Int :=
  (bs.filter (fun b => !b.pending)).map (fun b => b.msg.rowid)

theorem confirmedRowids_append (a b : List Bubble) :
    confirmedRowids (a ++ b) = confirmedRowids a ++ confirmedRowids b := by
  unfold confirmedRowids
  rw [List.filter_append, List.map_append]

theorem confirmedRowids_cons_pending {b : Bubble} (h : b.pending = true)
    (bs : List Bubble) : confirmedRowids (b :: bs) = confirmedRowids bs := by
  unfold confirmedRowids
  rw [List.filter_cons, if_neg (by simp [h])]

theorem confirmedRowids_cons_confirmed {b : Bubble} (h : b.pending = false)
    (bs : List Bubble) :
    confirmedRowids (b :: bs) = b.msg.rowid :: confirmedRowids bs := by
  unfold confirmedRowids
  rw [List.filter_cons, if_pos (by simp [h]), List.map_cons]

theorem mem_confirmedRowids {bs : List Bubble} {i : Int} :
    i ∈ confirmedRowids bs ↔ ∃ b ∈ bs, b.pending = false ∧ b.msg.rowid = i := by
  unfold confirmedRowids
  simp only [List.mem_map, List.mem_filter, Bool.not_eq_eq_eq_not, Bool.not_true]
  constructor
  · rintro ⟨b, ⟨h1, h2⟩, h3⟩
    exact ⟨b, h1, h2, h3⟩
  · rintro ⟨b, h1, h2, h3⟩
    exact ⟨b, ⟨h1, h2⟩, h3⟩

theorem confirmedRowids_map_confirmed (l : List Row) :
    confirmedRowids (l.map (fun m =>
      ({ pending := false, failed := false, msg := m } : Bubble))) =
      l.map (fun m => m.rowid) := by
  induction l with
  | nil => rfl
  | cons a t ih =>
    rw [List.map_cons, confirmedRowids_cons_confirmed rfl, ih]
    rfl

theorem confirmedRowids_renderBubbles (ms : List Row) :
    confirmedRowids (renderBubbles ms) = (ms.map (fun m => m.rowid)).reverse := by
  unfold renderBubbles
  rw [confirmedRowids_map_confirmed, List.map_reverse]

theorem mem_renderBubbles {ms : List Row} {b : Bubble} :
    b ∈ renderBubbles ms ↔ ∃ m ∈ ms,
      b = { pending := false, failed := false, msg := m } := by
  unfold renderBubbles
  simp [List.mem_map, List.mem_reverse]
  constructor
  · rintro ⟨m, hm, rfl⟩; exact ⟨m, hm, rfl⟩
  · rintro ⟨m, hm, rfl⟩; exact ⟨m, hm, rfl⟩

/-- The no-duplicate invariant of the Reconciliation Engine: every row
id occurs at most once in the internal `messages` list and at most once
among the rendered (non-pending) bubbles; every rendered row id is in
`seen_ids`, and when the pagination cursor is set every loaded message
is at or above it. -/
def EngInv (s : MLState) : Prop :=
  (s.messages.map (fun m => m.rowid)).Nodup ∧
  (∀ m ∈ s.messages, m.rowid ∈ s.seen) ∧
  (∀ o ∈ s.oldestRowid.toList, ∀ m ∈ s.messages, o ≤ m.rowid) ∧
  (confirmedRowids s.bubbles).Nodup ∧
  (∀ b ∈ s.bubbles, b.pending = false → b.msg.rowid ∈ s.seen)

instance : DecidablePred EngInv := fun s => by
  unfold EngInv
  infer_instance

theorem foldl_min_le (l : List Row) :
    ∀ a : Int, l.foldl (fun a r => min a r.rowid) a ≤ a ∧
      ∀ r ∈ l, l.foldl (fun a r => min a r.rowid) a ≤ r.rowid := by
  induction l with
  | nil => intro a; exact ⟨le_refl a, by simp⟩
  | cons x t ih =>
    intro a
    rw [List.foldl_cons]
    obtain ⟨h1, h2⟩ := ih (min a x.rowid)
    refine ⟨le_trans h1 (min_le_left a x.rowid), ?_⟩
    intro r hr
    rcases List.mem_cons.mp hr with rfl | hr2
    · exact le_trans h1 (min_le_right a r.rowid)
    · exact h2 r hr2

theorem minRowid_le {ms : List Row} : ∀ m ∈ ms, minRowid ms ≤ m.rowid := by
  cases ms with
  | nil => simp
  | cons x t =>
    intro m hm
    unfold minRowid
    rcases List.mem_cons.mp hm with rfl | hm2
    · exact (foldl_min_le t m.rowid).1
    · exact (foldl_min_le t x.rowid).2 m hm2

theorem nodup_rowids_query {store : List Row} (p : Row → Bool) (lim : Nat)
    (hstore : (store.map (fun r => r.rowid)).Nodup) :
    (((sortByDateDesc (store.filter p)).take lim).map
      (fun r => r.rowid)).Nodup := by
  have h1 : ((store.filter p).map (fun r => r.rowid)).Nodup :=
    ((List.filter_sublist store).map _).nodup hstore
  have h2 : ((sortByDateDesc (store.filter p)).map (fun r => r.rowid)).Nodup :=
    (((sortByDateDesc_perm (store.filter p)).map _).nodup_iff).mpr h1
  exact ((List.take_sublist _ _).map _).nodup h2

theorem nodup_rowids_get_messages {store : List Row} (chat : Option Int)
    (lim : Nat) (aft : Option Int)
    (hstore : (store.map (fun r => r.rowid)).Nodup) :
    ((get_messages store chat lim aft).map (fun r => r.rowid)).Nodup :=
  nodup_rowids_query _ lim hstore

theorem nodup_rowids_get_messages_before {store : List Row} (chat : Option Int)
    (lim : Nat) (b : Int)
    (hstore : (store.map (fun r => r.rowid)).Nodup) :
    ((get_messages_before store chat lim b).map (fun r => r.rowid)).Nodup :=
  nodup_rowids_query _ lim hstore

theorem mem_get_messages_before {store : List Row} {chat : Option Int}
    {lim : Nat} {bnd : Int} {m : Row}
    (h : m ∈ get_messages_before store chat lim bnd) :
    m ∈ store ∧ m.rowid < bnd := by
  unfold get_messages_before at h
  have h1 := (sortByDateDesc_perm _).mem_iff.mp ((List.take_sublist _ _).subset h)
  obtain ⟨h2, h3⟩ := List.mem_filter.mp h1
  refine ⟨h2, ?_⟩
  exact of_decide_eq_true (Bool.and_eq_true _ _ |>.mp h3).2

theorem renderMessages_bubbles (s : MLState) :
    (renderMessages s).bubbles =
      (if s.messages.isEmpty then [] else renderBubbles s.messages) := by
  unfold renderMessages
  by_cases h : s.messages.isEmpty
  · rw [if_pos h, if_pos h]
  · rw [if_neg h, if_neg h]

theorem load_chat_ok_fields (s : MLState) (c : Int) (msgs : List Row) :
    (load_chat s c (.ok msgs)).messages = msgs ∧
    (load_chat s c (.ok msgs)).seen = seenOf msgs ∧
    (load_chat s c (.ok msgs)).bubbles =
      (if msgs.isEmpty then [] else renderBubbles msgs) ∧
    (load_chat s c (.ok msgs)).oldestRowid =
      (if msgs.isEmpty then none else some (minRowid msgs)) := by
  unfold load_chat
  dsimp only
  by_cases h : msgs.isEmpty
  · rw [if_pos h]
    refine ⟨renderMessages_messages _, renderMessages_seen _, ?_, ?_⟩
    · rw [renderMessages_bubbles]
    · rw [renderMessages_oldestRowid]
      dsimp only
      rw [if_pos h]
  · rw [if_neg h]
    refine ⟨renderMessages_messages _, renderMessages_seen _, ?_, ?_⟩
    · rw [renderMessages_bubbles]
    · rw [renderMessages_oldestRowid]
      dsimp only
      rw [if_neg h]

theorem engInv_load_ok (s : MLState) (c : Int) (msgs : List Row)
    (hnd : (msgs.map (fun m => m.rowid)).Nodup) :
    EngInv (load_chat s c (.ok msgs)) := by
  obtain ⟨hm, hs, hbub, hold⟩ := load_chat_ok_fields s c msgs
  refine ⟨?_, ?_, ?_, ?_, ?_⟩
  · rw [hm]; exact hnd
  · intro m hmem
    rw [hm] at hmem
    rw [hs]
    exact mem_seenOf.mpr ⟨m, hmem, rfl⟩
  · intro o ho m hmem
    rw [hold] at ho
    rw [hm] at hmem
    by_cases h : msgs.isEmpty
    · rw [if_pos h] at ho
      simp at ho
    · rw [if_neg h] at ho
      simp only [Option.toList_some, List.mem_singleton] at ho
      rw [ho]
      exact minRowid_le m hmem
  · rw [hbub]
    by_cases h : msgs.isEmpty
    · rw [if_pos h]; exact List.nodup_nil
    · rw [if_neg h, confirmedRowids_renderBubbles]
      exact List.nodup_reverse.mpr hnd
  · intro b hb _
    rw [hbub] at hb
    rw [hs]
    by_cases h : msgs.isEmpty
    · rw [if_pos h] at hb
      exact absurd hb (List.not_mem_nil b)
    · rw [if_neg h] at hb
      obtain ⟨m, hmem, rfl⟩ := mem_renderBubbles.mp hb
      exact mem_seenOf.mpr ⟨m, hmem, rfl⟩

theorem engInv_appendNewMessage (s : MLState) (m : Row)
    (hinv : EngInv s)
    (hmsg : m.rowid ∉ s.messages.map (fun x => x.rowid))
    (hbub : m.rowid ∉ confirmedRowids s.bubbles)
    (hbound : ∀ o ∈ s.oldestRowid.toList, o ≤ m.rowid) :
    EngInv (appendNewMessage s m) := by
  obtain ⟨h1, h2, h3, h4, h5⟩ := hinv
  refine ⟨?_, ?_, ?_, ?_, ?_⟩
  · show ((m :: s.messages).map (fun x => x.rowid)).Nodup
    rw [List.map_cons]
    exact List.nodup_cons.mpr ⟨hmsg, h1⟩
  · intro x hx
    rcases List.mem_cons.mp hx with rfl | hx2
    · exact mem_setInsertInt.mpr (Or.inl rfl)
    · exact mem_setInsertInt.mpr (Or.inr (h2 x hx2))
  · intro o ho x hx
    rcases List.mem_cons.mp hx with rfl | hx2
    · exact hbound o ho
    · exact h3 o ho x hx2
  · show (confirmedRowids (s.bubbles ++
      [{ pending := false, failed := false, msg := m }])).Nodup
    rw [confirmedRowids_append, confirmedRowids_cons_confirmed rfl]
    refine List.Nodup.append h4 (by simp [confirmedRowids]) ?_
    intro x hx hx2
    rcases List.mem_cons.mp hx2 with rfl | hx3
    · exact hbub hx
    · simp [confirmedRowids] at hx3
  · intro b hb hbp
    rcases List.mem_append.mp hb with hb2 | hb2
    · exact mem_setInsertInt.mpr (Or.inr (h5 b hb2 hbp))
    · rw [List.mem_singleton.mp hb2]
      exact mem_setInsertInt.mpr (Or.inl rfl)

theorem engInv_seen_update (s : MLState) (pend : List String) (seen : List Int)
    (hsub : ∀ i ∈ s.seen, i ∈ seen) (hinv : EngInv s) :
    EngInv { s with pendingTexts := pend, seen := seen } := by
  obtain ⟨h1, h2, h3, h4, h5⟩ := hinv
  exact ⟨h1, fun m hm => hsub _ (h2 m hm), h3, h4,
    fun b hb hbp => hsub _ (h5 b hb hbp)⟩

theorem engInv_add_message (s : MLState) (m : Row) (hinv : EngInv s)
    (hbound : ∀ o ∈ s.oldestRowid.toList, o ≤ m.rowid) :
    EngInv (add_message s m) := by
  obtain ⟨h1, h2, h3, h4, h5⟩ := hinv
  unfold add_message
  by_cases hseen : m.rowid ∈ s.seen
  · rw [if_pos hseen]
    exact ⟨h1, h2, h3, h4, h5⟩
  · rw [if_neg hseen]
    dsimp only
    have hmsg : m.rowid ∉ s.messages.map (fun x => x.rowid) := by
      intro hx
      obtain ⟨x, hx1, hx2⟩ := List.mem_map.mp hx
      exact hseen (hx2 ▸ h2 x hx1)
    have hbub : m.rowid ∉ confirmedRowids s.bubbles := by
      intro hx
      obtain ⟨b, hb1, hb2, hb3⟩ := mem_confirmedRowids.mp hx
      exact hseen (hb3 ▸ h5 b hb1 hb2)
    by_cases hc : (m.isFromMe && s.pendingTexts.contains (msgText m)) = true
    · rw [if_pos hc]
      have hinv2 : EngInv { s with
          pendingTexts := setDiscardStr (msgText m) s.pendingTexts,
          seen := setInsertInt m.rowid s.seen } :=
        engInv_seen_update s _ _
          (fun i hi => mem_setInsertInt.mpr (Or.inr hi)) ⟨h1, h2, h3, h4, h5⟩
      cases hcf : confirmFirstPending (msgText m) m s.bubbles with
      | none => exact engInv_appendNewMessage _ m hinv2 hmsg hbub hbound
      | some bs2 =>
        obtain ⟨hi1, hi2, hi3, hi4, hi5⟩ := hinv2
        obtain ⟨pre, bp, post, e1, e2, e3, _, _⟩ :=
          confirmFirstPending_some_char (msgText m) m hcf
        have hconfOld : confirmedRowids s.bubbles =
            confirmedRowids pre ++ confirmedRowids post := by
          rw [e1, confirmedRowids_append, confirmedRowids_cons_pending e3]
        have hconfNew : confirmedRowids bs2 =
            confirmedRowids pre ++ m.rowid :: confirmedRowids post := by
          rw [e2, confirmedRowids_append, confirmedRowids_cons_confirmed rfl]
        refine ⟨hi1, hi2, hi3, ?_, ?_⟩
        · show (confirmedRowids bs2).Nodup
          rw [hconfNew]
          refine (List.perm_middle.nodup_iff).mpr ?_
          refine List.nodup_cons.mpr ⟨?_, ?_⟩
          · rw [← hconfOld]; exact hbub
          · rw [← hconfOld]; exact h4
        · intro b hb hbp
          show b.msg.rowid ∈ setInsertInt m.rowid s.seen
          have hb2 : b ∈ bs2 := hb
          rw [e2] at hb2
          rcases List.mem_append.mp hb2 with hb3 | hb3
          · refine mem_setInsertInt.mpr (Or.inr (h5 b ?_ hbp))
            rw [e1]
            exact List.mem_append_left _ hb3
          · rcases List.mem_cons.mp hb3 with rfl | hb4
            · exact mem_setInsertInt.mpr (Or.inl rfl)
            · refine mem_setInsertInt.mpr (Or.inr (h5 b ?_ hbp))
              rw [e1]
              exact List.mem_append_right _ (List.mem_cons_of_mem _ hb4)
    · rw [if_neg hc]
      exact engInv_appendNewMessage s m ⟨h1, h2, h3, h4, h5⟩ hmsg hbub hbound

theorem loadMoreStart_some_char {s s2 : MLState} {req : LoadMoreReq}
    (h : loadMoreStart s = some (s2, req)) :
    s2 = { s with loadingMore := true } ∧ s.currentChat = some req.chat ∧
      s.oldestRowid = some req.before := by
  unfold loadMoreStart at h
  by_cases hg : (s.hasMore = false ∨ s.loadingMore = true)
  · rw [if_pos hg] at h
    exact absurd h (by simp)
  · rw [if_neg hg] at h
    cases hc : s.currentChat with
    | none => rw [hc] at h; exact absurd h (by simp)
    | some c =>
      cases ho : s.oldestRowid with
      | none => rw [hc, ho] at h; exact absurd h (by simp)
      | some o =>
        rw [hc, ho] at h
        simp only [Option.some.injEq, Prod.mk.injEq] at h
        obtain ⟨hs2, hreq⟩ := h
        subst hreq
        refine ⟨hs2.symm.trans ?_, rfl, rfl⟩
        rw [← hc, ← ho]

theorem engInv_loadingMore (S : MLState) (b : Bool) (h : EngInv S) :
    EngInv { S with loadingMore := b } := by
  obtain ⟨h1, h2, h3, h4, h5⟩ := h
  exact ⟨h1, h2, h3, h4, h5⟩

theorem engInv_renderMessages (S : MLState)
    (k1 : (S.messages.map (fun m => m.rowid)).Nodup)
    (k2 : ∀ m ∈ S.messages, m.rowid ∈ S.seen)
    (k3 : ∀ o ∈ S.oldestRowid.toList, ∀ m ∈ S.messages, o ≤ m.rowid) :
    EngInv (renderMessages S) := by
  refine ⟨?_, ?_, ?_, ?_, ?_⟩
  · rw [renderMessages_messages]
    exact k1
  · intro m hm
    rw [renderMessages_messages] at hm
    rw [renderMessages_seen]
    exact k2 m hm
  · intro o ho m hm
    rw [renderMessages_messages] at hm
    rw [renderMessages_oldestRowid] at ho
    exact k3 o ho m hm
  · rw [renderMessages_bubbles]
    by_cases h : S.messages.isEmpty
    · rw [if_pos h]
      exact List.nodup_nil
    · rw [if_neg h, confirmedRowids_renderBubbles]
      exact List.nodup_reverse.mpr k1
  · intro b hb _
    rw [renderMessages_bubbles] at hb
    rw [renderMessages_seen]
    by_cases h : S.messages.isEmpty
    · rw [if_pos h] at hb
      exact absurd hb (List.not_mem_nil b)
    · rw [if_neg h] at hb
      obtain ⟨m, hm, rfl⟩ := mem_renderBubbles.mp hb
      exact k2 m hm

theorem engInv_loadMoreFinish (s : MLState) (older : List Row)
    (hinv : EngInv s)
    (hnd : (older.map (fun r => r.rowid)).Nodup)
    (bnd : Int) (hold : s.oldestRowid = some bnd)
    (hlt : ∀ m ∈ older, m.rowid < bnd) :
    EngInv (loadMoreFinish s (.ok older)) := by
  obtain ⟨h1, h2, h3, h4, h5⟩ := hinv
  have hbnd : ∀ m ∈ s.messages, bnd ≤ m.rowid := by
    intro m hm
    exact h3 bnd (by rw [hold]; exact List.mem_singleton_self bnd) m hm
  unfold loadMoreFinish
  dsimp only
  by_cases hemp : older.isEmpty
  · rw [if_pos hemp]
    exact ⟨h1, h2, h3, h4, h5⟩
  · rw [if_neg hemp]
    have hone : older ≠ [] := by
      intro h
      rw [h] at hemp
      exact hemp rfl
    have hdisj : ∀ x ∈ s.messages.map (fun r => r.rowid),
        x ∉ older.map (fun r => r.rowid) := by
      intro x hx hx2
      obtain ⟨m1, hm1, hm1e⟩ := List.mem_map.mp hx
      obtain ⟨m2, hm2, hm2e⟩ := List.mem_map.mp hx2
      have := hbnd m1 hm1
      have := hlt m2 hm2
      omega
    have hnodup2 : ((s.messages ++ older).map (fun r => r.rowid)).Nodup := by
      rw [List.map_append]
      exact List.Nodup.append h1 hnd hdisj
    have hmem2 : ∀ m ∈ s.messages ++ older,
        m.rowid ∈ setUnionRowids s.seen older := by
      intro m hm
      rcases List.mem_append.mp hm with h | h
      · exact mem_setUnionRowids.mpr (Or.inl (h2 m h))
      · exact mem_setUnionRowids.mpr (Or.inr ⟨m, h, rfl⟩)
    have hminle : ∀ m ∈ s.messages ++ older, minRowid older ≤ m.rowid := by
      intro m hm
      rcases List.mem_append.mp hm with h | h
      · rcases holder : older with _ | ⟨m0, t0⟩
        · exact absurd holder hone
        · have ha : minRowid (m0 :: t0) ≤ m0.rowid :=
            minRowid_le m0 (List.mem_cons_self m0 t0)
          have hb : m0.rowid < bnd := by
            rw [holder] at hlt
            exact hlt m0 (List.mem_cons_self m0 t0)
          have hc2 : bnd ≤ m.rowid := hbnd m h
          omega
      · exact minRowid_le m h
    refine engInv_loadingMore _ false (engInv_renderMessages _ ?_ ?_ ?_)
    · exact hnodup2
    · exact hmem2
    · intro o ho m hm
      have ho2 : o = minRowid older := by simpa using ho
      rw [ho2]
      exact hminle m hm

theorem engInv_load_more (store : List Row) (s : MLState)
    (hstore : (store.map (fun r => r.rowid)).Nodup) (hinv : EngInv s) :
    EngInv (load_more_messages store s) := by
  unfold load_more_messages
  cases hst : loadMoreStart s with
  | none => exact hinv
  | some pair =>
    obtain ⟨s2, req⟩ := pair
    obtain ⟨hs2, hchat, hold⟩ := loadMoreStart_some_char hst
    subst hs2
    obtain ⟨h1, h2, h3, h4, h5⟩ := hinv
    refine engInv_loadMoreFinish _ _ ⟨h1, h2, h3, h4, h5⟩
      (nodup_rowids_get_messages_before _ _ _ hstore) req.before hold ?_
    intro m hm
    exact (mem_get_messages_before hm).2

/-- C2 counterexample store: one chat (id 1) holding 52 rows with ids
and dates 1..52, so the initial page of `PAGE_SIZE = 50` leaves rows 1
and 2 unloaded below the pagination cursor. -/
def store52 : List Row :=
  (List.range 52).map
    (fun i => ⟨(i : Int) + 1, (i : Int) + 1, some 1, some "m", false⟩)

/-- Row 1 of `store52`, redelivered by a push (replay after a watermark
reset to 0 pushes the whole history; rows 3..52 are suppressed by
`seen_ids`, but row 1 was never delivered). -/
def replayRow : Row := ⟨1, 1, some 1, some "m", false⟩

set_option maxRecDepth 20000 in
/-- C2 counterexample: load chat 1 (rows 3..52, cursor 3), apply a
pushed batch that redelivers row 1 (older than the loaded page), then
load one older page. The backfill returns rows 1 and 2 again and the
engine appends them without consulting `seen_ids`: row id 1 now occurs
twice in the `messages` list (and in the re-rendered bubbles), refuting
the claim. -/
theorem engine_duplicate_cex :
    replayRow ∈ store52 ∧
    ¬ (((engStep store52
          (engStep store52
            (engStep store52 mlInit (.load 1))
            (.push replayRow))
          .loadOlder).messages.map (fun m => m.rowid)).Nodup) ∧
    ((engStep store52
        (engStep store52
          (engStep store52 mlInit (.load 1))
          (.push replayRow))
        .loadOlder).messages.map (fun m => m.rowid)).count 1 = 2 ∧
    ¬ ((confirmedRowids (engStep store52
        (engStep store52
          (engStep store52 mlInit (.load 1))
          (.push replayRow))
        .loadOlder).bubbles).Nodup) := by
  refine ⟨?_, ?_, ?_, ?_⟩ <;> decide

/-- C2 (amended): each row id occurs at most once in the engine's
`messages` list and among the rendered (non-pending) bubbles — provided
every pushed row is at or above the pagination cursor
`oldest_loaded_id` when it is applied. `EngInv` (which contains exactly
those no-duplicate properties) is preserved by every initial load,
backward page load, and pushed row satisfying that side condition; a
pushed row below the cursor (a replay reaching below the loaded page)
escapes deduplication because the next backward page re-fetches it, as
the counterexample shows. -/
theorem engine_no_duplicate_rendering (store : List Row) (s : MLState)
    (op : EngOp)
    (hstore : (store.map (fun r => r.rowid)).Nodup)
    (hinv : EngInv s)
    (hpush : ∀ m, op = EngOp.push m → ∀ o ∈ s.oldestRowid.toList, o ≤ m.rowid) :
    EngInv (engStep store s op) ∧
    (((engStep store s op).messages.map (fun m => m.rowid)).Nodup ∧
      (confirmedRowids (engStep store s op).bubbles).Nodup) := by
  have h : EngInv (engStep store s op) := by
    cases op with
    | load c =>
      exact engInv_load_ok s c _ (nodup_rowids_get_messages _ _ _ hstore)
    | loadOlder =>
      exact engInv_load_more store s hstore hinv
    | push m =>
      exact engInv_add_message s m hinv (hpush m rfl)
  exact ⟨h, h.1, h.2.2.2.1⟩

/-- Witness for C2 at a one-row store, from the freshly mounted widget,
performing the initial load of chat 1. -/
theorem engine_no_duplicate_rendering_witness :
    EngInv (engStep [replayRow] mlInit (.load 1)) ∧
    (((engStep [replayRow] mlInit (.load 1)).messages.map
        (fun m => m.rowid)).Nodup ∧
      (confirmedRowids (engStep [replayRow] mlInit (.load 1)).bubbles).Nodup) :=
  engine_no_duplicate_rendering [replayRow] mlInit (.load 1)
    (by decide) (by decide) (fun m h => nomatch h)
